import Mathlib

/-!
Verification of the caregiver scheduling program (`Project03_FinalCode.py`).

The Python source is shallowly embedded: Python `dict`s become association
lists with insert-overwrite semantics, Python floats become rationals (ℚ),
a call that raises `ValueError` becomes an `Option`/`none` result, and the
mutation of caregiver objects by the scheduler becomes explicit state
passing over the caregiver list (objects are identified by their position
in the list).
-/

namespace Project03

/-! ## Python dict primitives -/

/-- Assignment `d[k] = v` on a Python dict represented as an association
list: the first binding of `k` is overwritten in place, otherwise the new
binding is appended at the end (insertion order is preserved). -/
def dictInsert {α : Type} [DecidableEq α] {β : Type} (k : α) (v : β) :
    List (α × β) → List (α × β)
  | [] => [(k, v)]
  | p :: t => if p.1 = k then (k, v) :: t else p :: dictInsert k v t

/-- Lookup `d.get(k)` on a Python dict represented as an association list. -/
def dictGet? {α : Type} [DecidableEq α] {β : Type} (k : α) :
    List (α × β) → Option β
  | [] => none
  | p :: t => if p.1 = k then some p.2 else dictGet? k t

/-! ## AvailStatus (class `AvailStatus`) -/

/-- The constant `AvailStatus.PREFERRED` of the source. -/
def AvailStatus.PREFERRED : String := "preferred"

/-- The constant `AvailStatus.AVAILABLE` of the source. -/
def AvailStatus.AVAILABLE : String := "available"

/-- The constant `AvailStatus.UNAVAILABLE` of the source. -/
def AvailStatus.UNAVAILABLE : String := "unavailable"

/-! ## Caregiver (class `Caregiver`) -/

/-- A caregiver record: the attributes set by `Caregiver.__init__`.
`availability` is the dict keyed by `(date, shift)` pairs. -/
structure Caregiver where
  name : String
  phone : String
  email : String
  pay_rate : ℚ
  hours : ℚ
  availability : List ((String × String) × String)
deriving DecidableEq

/-- `Caregiver.validate_input`: `true` when the input passes all three
checks (no field empty, pay rate non-negative, exactly one `'@'` in the
email); `false` when the Python code raises `ValueError`. -/
def Caregiver.validate_input (name phone email : String) (pay_rate : ℚ) : Bool :=
  if name = "" ∨ phone = "" ∨ email = "" then false
  else if pay_rate < 0 then false
  else if ¬ email.data.count '@' = 1 then false
  else true

/-- `Caregiver.__init__`: validates the input and builds the record with an
empty availability dict; `none` models the raised `ValueError`. -/
def Caregiver.create (name phone email : String) (pay_rate hours : ℚ) :
    Option Caregiver :=
  if Caregiver.validate_input name phone email pay_rate then
    some ⟨name, phone, email, pay_rate, hours, []⟩
  else none

/-- `Caregiver.set_availability`: checks only the status argument against
the three `AvailStatus` constants, then stores the status under the
`(date, shift)` key; `none` models the raised `ValueError`. -/
def Caregiver.set_availability (c : Caregiver) (date shift status : String) :
    Option Caregiver :=
  if status = AvailStatus.AVAILABLE ∨ status = AvailStatus.UNAVAILABLE ∨
      status = AvailStatus.PREFERRED then
    some { c with availability := dictInsert (date, shift) status c.availability }
  else none

/-- `Caregiver.get_availability`: the stored status for `(date, shift)`, or
`AvailStatus.AVAILABLE` when the key is absent. -/
def Caregiver.get_availability (c : Caregiver) (date shift : String) : String :=
  (dictGet? (date, shift) c.availability).getD AvailStatus.AVAILABLE

/-- `Caregiver.add_hours`: rejects a negative amount (`none` models the
raised `ValueError`), otherwise adds the amount to the running total. -/
def Caregiver.add_hours (c : Caregiver) (hours : ℚ) : Option Caregiver :=
  if hours < 0 then none
  else some { c with hours := c.hours + hours }

/-! ## PayReport (class `PayReport`) -/

/-- One value of the dict `PayReport.calculate_pay` builds per caregiver:
`(hours, rate, weekly_gross, monthly_gross)`. -/
def payEntry (c : Caregiver) : ℚ × ℚ × ℚ × ℚ :=
  (c.hours, c.pay_rate, c.hours * c.pay_rate, c.hours * c.pay_rate * 4)

/-- `PayReport.calculate_pay`: folds over the caregiver list, writing each
caregiver's entry into a dict keyed by name (a later caregiver with the
same name overwrites the earlier entry, as in Python). -/
def calculate_pay (caregivers : List Caregiver) : List (String × (ℚ × ℚ × ℚ × ℚ)) :=
  caregivers.foldl (fun acc c => dictInsert c.name (payEntry c) acc) []

/-! ## Schedule (class `Schedule`)

The Python `calendar` module pieces the scheduler relies on: `isleap`, the
month lengths, and the fact that `Calendar.itermonthdays` yields `0` for
each padding slot and the day numbers `1 .. monthLength` in order for the
real days (the code skips the zeros). -/

/-- `calendar.isleap` of the Python standard library. -/
def isleap (year : ℕ) : Bool :=
  year % 4 = 0 && (year % 100 ≠ 0 || year % 400 = 0)

/-- Number of real days of the month, as Python's `calendar` module
computes it (`mdays` adjusted for February in leap years). -/
def monthLength (year month : ℕ) : ℕ :=
  if month = 2 then (if isleap year then 29 else 28)
  else if month = 4 ∨ month = 6 ∨ month = 9 ∨ month = 11 then 30 else 31

/-- Zero-padding to two digits, as `f'{n:02d}'` renders a natural number. -/
def pad2 (n : ℕ) : String :=
  if n < 10 then "0" ++ toString n else toString n

/-- The date key `f'{year}-{month:02d}-{day:02d}'` built by
`Schedule._schedule_day`. -/
def dateStr (year month day : ℕ) : String :=
  toString year ++ "-" ++ pad2 month ++ "-" ++ pad2 day

/-- A schedule dict: date string to the `(AM, PM)` cell contents. -/
abbrev Sched := List (String × (String × String))

/-- One step of Python's `min(..., key=lambda x: x.hours)` over
index-caregiver pairs: a later element replaces the accumulator only when
its hours are strictly smaller, so the first minimum wins. -/
def gstep (acc c : ℕ × Caregiver) : ℕ × Caregiver :=
  if c.2.hours < acc.2.hours then c else acc

/-- `min(lst, key=lambda x: x.hours)` over index-caregiver pairs; `none`
when the list is empty (Python's `min` would raise, but the code only calls
it on a non-empty list). -/
def minByHours : List (ℕ × Caregiver) → Option (ℕ × Caregiver)
  | [] => none
  | a :: t => some (t.foldl gstep a)

/-- The list comprehension `preferred_caregivers` of `Schedule._assign_shift`,
with each caregiver paired with its position in `self.caregiver`. -/
def preferredOf (caregivers : List Caregiver) (date shift : String) :
    List (ℕ × Caregiver) :=
  caregivers.enum.filter
    (fun p => p.2.get_availability date shift = AvailStatus.PREFERRED)

/-- The list comprehension `available_caregivers` of `Schedule._assign_shift`. -/
def availableOf (caregivers : List Caregiver) (date shift : String) :
    List (ℕ × Caregiver) :=
  caregivers.enum.filter
    (fun p => ¬ p.2.get_availability date shift = AvailStatus.UNAVAILABLE)

/-- The selection of `Schedule._assign_shift`: the lowest-hours preferred
caregiver when some caregiver is preferred, else the lowest-hours available
caregiver, else `none`. -/
def chooseCaregiver (caregivers : List Caregiver) (date shift : String) :
    Option (ℕ × Caregiver) :=
  match minByHours (preferredOf caregivers date shift) with
  | some p => some p
  | none => minByHours (availableOf caregivers date shift)

/-- `Schedule._assign_shift` as a function of the caregiver list: the chosen
caregiver (if any) gets 6 hours added in place, and the cell records their
name, or `"No coverage"`. -/
def assignShift (caregivers : List Caregiver) (date shift : String) :
    List Caregiver × String :=
  match chooseCaregiver caregivers date shift with
  | some (i, c) => (caregivers.set i { c with hours := c.hours + 6 }, c.name)
  | none => (caregivers, "No coverage")

/-- `Schedule._schedule_day`: assigns the AM shift, then the PM shift with
the AM-updated hours, and writes the `(AM, PM)` cell under the date key. -/
def scheduleDay (year month day : ℕ) (st : List Caregiver × Sched) :
    List Caregiver × Sched :=
  ((assignShift (assignShift st.1 (dateStr year month day) "AM").1
      (dateStr year month day) "PM").1,
   dictInsert (dateStr year month day)
     ((assignShift st.1 (dateStr year month day) "AM").2,
      (assignShift (assignShift st.1 (dateStr year month day) "AM").1
        (dateStr year month day) "PM").2)
     st.2)

/-- `Schedule.create_schedule`, explicit over the instance state (the
caregiver list and the existing schedule dict): validates the month and
year (`none` models the raised `ValueError`), then schedules every real day
of the month in order. -/
def create_schedule (caregivers : List Caregiver) (sched : Sched)
    (month year : ℕ) : Option (List Caregiver × Sched) :=
  if 1 ≤ month ∧ month ≤ 12 ∧ 2000 ≤ year then
    some ((List.range' 1 (monthLength year month)).foldl
      (fun st day => scheduleDay year month day st) (caregivers, sched))
  else none

/-! ## Mutating operations on the roster

The program mutates caregiver records through `set_availability`,
`add_hours` and the scheduler's in-place hour increments. These inductives
replay any sequence of those calls over the roster; a call the code rejects
with `ValueError` leaves the state unchanged, exactly as a raised exception
does. -/

/-- One mutating call on a single caregiver record. -/
inductive CgOp where
  | setAvail (date shift status : String)
  | addHours (amount : ℚ)

/-- Run one caregiver call; a rejected call returns the record unchanged. -/
def applyCgOp (c : Caregiver) : CgOp → Caregiver
  | CgOp.setAvail date shift status => (c.set_availability date shift status).getD c
  | CgOp.addHours amount => (c.add_hours amount).getD c

/-- One state-changing operation on the caregiver roster: a call on the
caregiver at a position, or a full scheduler run. -/
inductive RosterOp where
  | cg (i : ℕ) (op : CgOp)
  | runSchedule (month year : ℕ)

/-- Run one roster operation; an out-of-range index, a rejected call or an
invalid month/year leaves the roster unchanged. -/
def applyRosterOp (cs : List Caregiver) : RosterOp → List Caregiver
  | RosterOp.cg i op =>
    match cs.get? i with
    | some c => cs.set i (applyCgOp c op)
    | none => cs
  | RosterOp.runSchedule month year =>
    match create_schedule cs [] month year with
    | some r => r.1
    | none => cs

/-! ## Concrete records used to instantiate the theorems -/

/-- A fully available caregiver with no hours accrued. -/
def cW : Caregiver := ⟨"A", "301-0000", "a@b.com", 25, 0, []⟩

/-- A caregiver with 40 accrued hours at rate 25. -/
def cP : Caregiver := ⟨"P", "301-0001", "p@b.com", 25, 40, []⟩

/-! ## Lemmas about the dict primitives -/

theorem mem_dictInsert {α : Type} [DecidableEq α] {β : Type} {k : α} {v : β}
    {l : List (α × β)} {e : α × β} (h : e ∈ dictInsert k v l) :
    e = (k, v) ∨ e ∈ l := by
  induction l with
  | nil => simpa [dictInsert] using h
  | cons p t ih =>
    unfold dictInsert at h
    split at h
    · rcases List.mem_cons.mp h with h' | h'
      · exact Or.inl h'
      · exact Or.inr (List.mem_cons_of_mem _ h')
    · rcases List.mem_cons.mp h with h' | h'
      · exact Or.inr (h' ▸ List.mem_cons_self _ _)
      · rcases ih h' with h'' | h''
        · exact Or.inl h''
        · exact Or.inr (List.mem_cons_of_mem _ h'')

theorem dictInsert_fresh {α : Type} [DecidableEq α] {β : Type} {k : α} (v : β)
    {l : List (α × β)} (h : k ∉ l.map Prod.fst) :
    dictInsert k v l = l ++ [(k, v)] := by
  induction l with
  | nil => rfl
  | cons p t ih =>
    simp only [List.map_cons, List.mem_cons] at h
    push_neg at h
    unfold dictInsert
    rw [if_neg (fun hh => h.1 hh.symm), ih h.2]
    simp

theorem dictGet?_dictInsert_self {α : Type} [DecidableEq α] {β : Type}
    (k : α) (v : β) (l : List (α × β)) :
    dictGet? k (dictInsert k v l) = some v := by
  induction l with
  | nil => simp [dictInsert, dictGet?]
  | cons p t ih =>
    unfold dictInsert
    split
    · simp [dictGet?]
    · unfold dictGet?
      next hne => rw [if_neg hne]; exact ih

theorem dictGet?_dictInsert_ne {α : Type} [DecidableEq α] {β : Type}
    {k k' : α} (v : β) (l : List (α × β)) (h : ¬ k' = k) :
    dictGet? k (dictInsert k' v l) = dictGet? k l := by
  induction l with
  | nil => simp [dictInsert, dictGet?, h]
  | cons p t ih =>
    unfold dictInsert
    split
    · next he => unfold dictGet?; rw [if_neg h, if_neg (he ▸ h)]
    · unfold dictGet?
      split
      · rfl
      · exact ih

theorem dictGet?_of_const {α : Type} [DecidableEq α] {β : Type} {k : α} {v : β}
    {l : List (α × β)} (hk : k ∈ l.map Prod.fst) (hv : ∀ e ∈ l, e.2 = v) :
    dictGet? k l = some v := by
  induction l with
  | nil => simp at hk
  | cons p t ih =>
    unfold dictGet?
    split
    · exact congrArg some (hv p (List.mem_cons_self _ _))
    · next hne =>
      rw [List.map_cons] at hk
      apply ih
      · rcases List.mem_cons.mp hk with h' | h'
        · exact absurd h'.symm hne
        · exact h'
      · exact fun e he => hv e (List.mem_cons_of_mem _ he)

theorem dictInsert_of_get {α : Type} [DecidableEq α] {β : Type} {k : α} {v : β}
    {l : List (α × β)} (h : dictGet? k l = some v) :
    dictInsert k v l = l := by
  induction l with
  | nil => simp [dictGet?] at h
  | cons p t ih =>
    unfold dictGet? at h
    unfold dictInsert
    split at h
    · next he =>
      rw [if_pos he]
      obtain rfl : p.2 = v := Option.some.inj h
      rw [← he]
    · next hne => rw [if_neg hne, ih h]

/-! ## Lemmas about `List.enumFrom` -/

theorem mem_enumFrom_snd {α : Type} {p : ℕ × α} :
    ∀ {n : ℕ} {l : List α}, p ∈ List.enumFrom n l → p.2 ∈ l := by
  intro n l
  induction l generalizing n with
  | nil => intro h; simp at h
  | cons a t ih =>
    intro h
    rcases List.mem_cons.mp h with h' | h'
    · rw [h']; exact List.mem_cons_self _ _
    · exact List.mem_cons_of_mem _ (ih h')

theorem mem_enumFrom_fst {α : Type} {p : ℕ × α} :
    ∀ {n : ℕ} {l : List α}, p ∈ List.enumFrom n l → n ≤ p.1 := by
  intro n l
  induction l generalizing n with
  | nil => intro h; simp at h
  | cons a t ih =>
    intro h
    rcases List.mem_cons.mp h with h' | h'
    · rw [h']
    · exact le_trans (Nat.le_succ n) (ih h')

theorem enumFrom_pairwise {α : Type} :
    ∀ (n : ℕ) (l : List α),
      (List.enumFrom n l).Pairwise (fun p q => p.1 < q.1) := by
  intro n l
  induction l generalizing n with
  | nil => exact List.Pairwise.nil
  | cons a t ih =>
    refine List.pairwise_cons.mpr ⟨?_, ih (n + 1)⟩
    intro q hq
    exact lt_of_lt_of_le (Nat.lt_succ_self n) (mem_enumFrom_fst hq)

theorem enum_pairwise {α : Type} (l : List α) :
    l.enum.Pairwise (fun p q => p.1 < q.1) :=
  enumFrom_pairwise 0 l

theorem mem_enum_snd {α : Type} {p : ℕ × α} {l : List α}
    (h : p ∈ l.enum) : p.2 ∈ l :=
  mem_enumFrom_snd h

/-! ## Lemmas about the lowest-hours selection -/

theorem foldl_gstep_mem :
    ∀ (l : List (ℕ × Caregiver)) (a : ℕ × Caregiver),
      l.foldl gstep a = a ∨ l.foldl gstep a ∈ l := by
  intro l
  induction l with
  | nil => intro a; exact Or.inl rfl
  | cons c t ih =>
    intro a
    rw [List.foldl_cons]
    rcases ih (gstep a c) with h | h
    · rw [h]
      unfold gstep
      split
      · exact Or.inr (List.mem_cons_self _ _)
      · exact Or.inl rfl
    · exact Or.inr (List.mem_cons_of_mem _ h)

theorem foldl_gstep_le :
    ∀ (l : List (ℕ × Caregiver)) (a : ℕ × Caregiver),
      (l.foldl gstep a).2.hours ≤ a.2.hours ∧
        ∀ c ∈ l, (l.foldl gstep a).2.hours ≤ c.2.hours := by
  intro l
  induction l with
  | nil => intro a; exact ⟨le_refl _, by simp⟩
  | cons c t ih =>
    intro a
    obtain ⟨h1, h2⟩ := ih (gstep a c)
    have hga : (gstep a c).2.hours ≤ a.2.hours ∧ (gstep a c).2.hours ≤ c.2.hours := by
      unfold gstep
      split
      · next hlt => exact ⟨le_of_lt hlt, le_refl _⟩
      · next hlt => exact ⟨le_refl _, le_of_not_lt hlt⟩
    rw [List.foldl_cons]
    refine ⟨le_trans h1 hga.1, ?_⟩
    intro d hd
    rcases List.mem_cons.mp hd with rfl | hd
    · exact le_trans h1 hga.2
    · exact h2 d hd

theorem foldl_gstep_first (l : List (ℕ × Caregiver)) :
    ∀ (a : ℕ × Caregiver), (∀ q ∈ l, a.1 < q.1) →
      l.Pairwise (fun p q => p.1 < q.1) →
      ∀ q : ℕ × Caregiver, (q = a ∨ q ∈ l) →
        q.2.hours = (l.foldl gstep a).2.hours → (l.foldl gstep a).1 ≤ q.1 := by
  induction l with
  | nil =>
    intro a _ _ q hq hh
    rcases hq with rfl | h
    · exact le_refl _
    · exact absurd h (List.not_mem_nil q)
  | cons c t ih =>
    intro a hlt hp q hq hh
    rw [List.foldl_cons] at hh ⊢
    have hcons := List.pairwise_cons.mp hp
    have hlt' : ∀ r ∈ t, (gstep a c).1 < r.1 := by
      intro r hr
      unfold gstep
      split
      · exact hcons.1 r hr
      · exact hlt r (List.mem_cons_of_mem _ hr)
    have ih' := ih (gstep a c) hlt' hcons.2
    have hfold_le := (foldl_gstep_le t (gstep a c)).1
    rcases hq with rfl | hq
    · by_cases h : c.2.hours < q.2.hours
      · exfalso
        have hg : gstep q c = c := if_pos h
        rw [hg] at hh hfold_le
        rw [← hh] at hfold_le
        exact absurd (lt_of_le_of_lt hfold_le h) (lt_irrefl _)
      · have hg : gstep q c = q := if_neg h
        exact ih' q (Or.inl hg.symm) hh
    · rcases List.mem_cons.mp hq with rfl | hq
      · by_cases h : q.2.hours < a.2.hours
        · have hg : gstep a q = q := if_pos h
          exact ih' q (Or.inl hg.symm) hh
        · have hg : gstep a q = a := if_neg h
          rw [hg] at ih' hfold_le hh ⊢
          have h1 : a.2.hours ≤ (t.foldl gstep a).2.hours := by
            rw [← hh]; exact le_of_not_lt h
          have haq : (t.foldl gstep a).2.hours = a.2.hours :=
            le_antisymm hfold_le h1
          exact le_trans (ih' a (Or.inl rfl) haq.symm)
            (le_of_lt (hlt q (List.mem_cons_self _ _)))
      · exact ih' q (Or.inr hq) hh

theorem minByHours_mem {l : List (ℕ × Caregiver)} {p : ℕ × Caregiver}
    (h : minByHours l = some p) : p ∈ l := by
  match l with
  | [] => exact absurd h (by simp [minByHours])
  | a :: t =>
    obtain rfl : t.foldl gstep a = p := Option.some.inj (by simpa [minByHours] using h)
    rcases foldl_gstep_mem t a with h' | h'
    · rw [h']; exact List.mem_cons_self _ _
    · exact List.mem_cons_of_mem _ h'

theorem minByHours_spec {l : List (ℕ × Caregiver)}
    (hp : l.Pairwise (fun p q => p.1 < q.1)) (hne : l ≠ []) :
    ∃ p, minByHours l = some p ∧ p ∈ l ∧
      ∀ q ∈ l, p.2.hours ≤ q.2.hours ∧ (q.2.hours = p.2.hours → p.1 ≤ q.1) := by
  match l, hne with
  | a :: t, _ =>
    refine ⟨t.foldl gstep a, rfl, minByHours_mem rfl, ?_⟩
    intro q hq
    obtain ⟨h1, h2⟩ := foldl_gstep_le t a
    have hcons := List.pairwise_cons.mp hp
    constructor
    · rcases List.mem_cons.mp hq with rfl | hq'
      · exact h1
      · exact h2 q hq'
    · intro hh
      refine foldl_gstep_first t a hcons.1 hcons.2 q ?_ hh
      rcases List.mem_cons.mp hq with rfl | hq'
      · exact Or.inl rfl
      · exact Or.inr hq'

/-! ## Lemmas about the shift selection -/

theorem mem_preferredOf {cs : List Caregiver} {date shift : String}
    {p : ℕ × Caregiver} :
    p ∈ preferredOf cs date shift ↔
      p ∈ cs.enum ∧ p.2.get_availability date shift = AvailStatus.PREFERRED := by
  simp [preferredOf, List.mem_filter]

theorem mem_availableOf {cs : List Caregiver} {date shift : String}
    {p : ℕ × Caregiver} :
    p ∈ availableOf cs date shift ↔
      p ∈ cs.enum ∧ ¬ p.2.get_availability date shift = AvailStatus.UNAVAILABLE := by
  simp [availableOf, List.mem_filter]

theorem preferredOf_pairwise (cs : List Caregiver) (date shift : String) :
    (preferredOf cs date shift).Pairwise (fun p q => p.1 < q.1) :=
  (enum_pairwise cs).filter _

theorem availableOf_pairwise (cs : List Caregiver) (date shift : String) :
    (availableOf cs date shift).Pairwise (fun p q => p.1 < q.1) :=
  (enum_pairwise cs).filter _

theorem chooseCaregiver_cases {cs : List Caregiver} {date shift : String}
    {p : ℕ × Caregiver} (h : chooseCaregiver cs date shift = some p) :
    p ∈ preferredOf cs date shift ∨ p ∈ availableOf cs date shift := by
  unfold chooseCaregiver at h
  cases hm : minByHours (preferredOf cs date shift) with
  | some q =>
    rw [hm] at h
    obtain rfl : q = p := Option.some.inj h
    exact Or.inl (minByHours_mem hm)
  | none =>
    rw [hm] at h
    exact Or.inr (minByHours_mem h)

theorem chooseCaregiver_snd_mem {cs : List Caregiver} {date shift : String}
    {p : ℕ × Caregiver} (h : chooseCaregiver cs date shift = some p) :
    p.2 ∈ cs := by
  rcases chooseCaregiver_cases h with h' | h'
  · exact mem_enum_snd (mem_preferredOf.mp h').1
  · exact mem_enum_snd (mem_availableOf.mp h').1

/-! ## The scheduler preserves non-negative pay rates and hours -/

theorem assignShift_preserves {cs : List Caregiver} {date shift : String}
    (h : ∀ c ∈ cs, 0 ≤ c.pay_rate ∧ 0 ≤ c.hours) :
    ∀ c' ∈ (assignShift cs date shift).1, 0 ≤ c'.pay_rate ∧ 0 ≤ c'.hours := by
  intro c' hc'
  unfold assignShift at hc'
  cases hch : chooseCaregiver cs date shift with
  | none => rw [hch] at hc'; exact h c' hc'
  | some p =>
    obtain ⟨i, c⟩ := p
    rw [hch] at hc'
    simp only at hc'
    rcases List.mem_or_eq_of_mem_set hc' with h' | h'
    · exact h c' h'
    · have hc : c ∈ cs := chooseCaregiver_snd_mem hch
      obtain ⟨hr, hh⟩ := h c hc
      rw [h']
      exact ⟨hr, add_nonneg hh (by norm_num)⟩

theorem scheduleDay_preserves {year month day : ℕ} {st : List Caregiver × Sched}
    (h : ∀ c ∈ st.1, 0 ≤ c.pay_rate ∧ 0 ≤ c.hours) :
    ∀ c' ∈ (scheduleDay year month day st).1, 0 ≤ c'.pay_rate ∧ 0 ≤ c'.hours :=
  fun c' hc' => assignShift_preserves (assignShift_preserves h) c' hc'

theorem foldl_scheduleDay_preserves (year month : ℕ) :
    ∀ (ds : List ℕ) (st : List Caregiver × Sched),
    (∀ c ∈ st.1, 0 ≤ c.pay_rate ∧ 0 ≤ c.hours) →
    ∀ c' ∈ (ds.foldl (fun st day => scheduleDay year month day st) st).1,
      0 ≤ c'.pay_rate ∧ 0 ≤ c'.hours := by
  intro ds
  induction ds with
  | nil => intro st h; simpa using h
  | cons d t ih =>
    intro st h
    rw [List.foldl_cons]
    exact ih _ (scheduleDay_preserves h)

theorem create_schedule_preserves {cs : List Caregiver} {sched : Sched}
    {month year : ℕ} {r : List Caregiver × Sched}
    (h : ∀ c ∈ cs, 0 ≤ c.pay_rate ∧ 0 ≤ c.hours)
    (hr : create_schedule cs sched month year = some r) :
    ∀ c' ∈ r.1, 0 ≤ c'.pay_rate ∧ 0 ≤ c'.hours := by
  unfold create_schedule at hr
  split at hr
  · obtain rfl : _ = r := Option.some.inj hr
    exact foldl_scheduleDay_preserves year month _ (cs, sched) h
  · exact absurd hr (by simp)

/-! ## Calendar and date-key lemmas -/

theorem monthLength_le (year month : ℕ) : monthLength year month ≤ 31 := by
  unfold monthLength
  split
  · split <;> omega
  · split <;> omega

theorem pad2_nodup : ((List.range' 1 31).map pad2).Nodup := by decide

theorem dateStr_inj (year month : ℕ) {a b : ℕ}
    (ha : a ∈ List.range' 1 31) (hb : b ∈ List.range' 1 31)
    (h : dateStr year month a = dateStr year month b) : a = b := by
  have h2 := congrArg String.data h
  simp only [dateStr, String.data_append, List.append_assoc] at h2
  have hd : (pad2 a).data = (pad2 b).data :=
    List.append_cancel_left (List.append_cancel_left
      (List.append_cancel_left (List.append_cancel_left h2)))
  exact List.inj_on_of_nodup_map pad2_nodup ha hb (congrArg String.mk hd)

theorem dates_nodup (year month N : ℕ) (hN : N ≤ 31) :
    ((List.range' 1 N).map (dateStr year month)).Nodup := by
  refine List.Nodup.map_on ?_ (List.nodup_range' _ _)
  intro a ha b hb h
  have ha' : a ∈ List.range' 1 31 := by
    rw [List.mem_range'_1] at ha ⊢; omega
  have hb' : b ∈ List.range' 1 31 := by
    rw [List.mem_range'_1] at hb ⊢; omega
  exact dateStr_inj year month ha' hb' h

theorem scheduleDay_snd (year month day : ℕ) (st : List Caregiver × Sched) :
    (scheduleDay year month day st).2
      = dictInsert (dateStr year month day)
          ((assignShift st.1 (dateStr year month day) "AM").2,
           (assignShift (assignShift st.1 (dateStr year month day) "AM").1
             (dateStr year month day) "PM").2)
          st.2 := rfl

theorem foldl_scheduleDay_keys (year month : ℕ) :
    ∀ (ds : List ℕ) (st : List Caregiver × Sched),
    (∀ d ∈ ds, dateStr year month d ∉ st.2.map Prod.fst) →
    (ds.map (dateStr year month)).Nodup →
    ((ds.foldl (fun st day => scheduleDay year month day st) st).2).map Prod.fst
      = st.2.map Prod.fst ++ ds.map (dateStr year month) := by
  intro ds
  induction ds with
  | nil => intro st _ _; simp
  | cons d t ih =>
    intro st hfresh hnd
    rw [List.map_cons, List.nodup_cons] at hnd
    rw [List.foldl_cons]
    have hkeys : (scheduleDay year month d st).2.map Prod.fst
        = st.2.map Prod.fst ++ [dateStr year month d] := by
      rw [scheduleDay_snd, dictInsert_fresh _ (hfresh d (List.mem_cons_self _ _))]
      simp
    have hfresh' : ∀ e ∈ t,
        dateStr year month e ∉ (scheduleDay year month d st).2.map Prod.fst := by
      intro e he hcon
      rw [hkeys] at hcon
      rcases List.mem_append.mp hcon with h1 | h1
      · exact hfresh e (List.mem_cons_of_mem _ he) h1
      · rw [List.mem_singleton] at h1
        exact hnd.1 (h1 ▸ List.mem_map_of_mem _ he)
    rw [ih (scheduleDay year month d st) hfresh' hnd.2, hkeys, List.map_cons]
    simp

/-! ## A single fully available caregiver takes every shift -/

theorem assignShift_single (c : Caregiver) (date shift : String)
    (h : ¬ c.get_availability date shift = AvailStatus.UNAVAILABLE) :
    assignShift [c] date shift = ([{ c with hours := c.hours + 6 }], c.name) := by
  by_cases hp : c.get_availability date shift = AvailStatus.PREFERRED
  · have h1 : preferredOf [c] date shift = [(0, c)] := by
      unfold preferredOf
      rw [show ([c] : List Caregiver).enum = [(0, c)] from rfl]
      simp [List.filter_cons, hp]
    unfold assignShift chooseCaregiver
    rw [h1]
    rfl
  · have h1 : preferredOf [c] date shift = [] := by
      unfold preferredOf
      rw [show ([c] : List Caregiver).enum = [(0, c)] from rfl]
      simp [List.filter_cons, hp]
    have h2 : availableOf [c] date shift = [(0, c)] := by
      unfold availableOf
      rw [show ([c] : List Caregiver).enum = [(0, c)] from rfl]
      simp [List.filter_cons, h]
    unfold assignShift chooseCaregiver
    rw [h1, h2]
    rfl

theorem assignShift_single_at (c : Caregiver) (h0 : ℚ) (date shift : String)
    (h : ¬ c.get_availability date shift = AvailStatus.UNAVAILABLE) :
    assignShift [{ c with hours := h0 }] date shift
      = ([{ c with hours := h0 + 6 }], c.name) :=
  assignShift_single { c with hours := h0 } date shift h

theorem scheduleDay_single (year month day : ℕ) (c : Caregiver) (h0 : ℚ) (sch : Sched)
    (h : ∀ s : String,
      ¬ c.get_availability (dateStr year month day) s = AvailStatus.UNAVAILABLE) :
    scheduleDay year month day ([{ c with hours := h0 }], sch)
      = ([{ c with hours := h0 + 12 }],
         dictInsert (dateStr year month day) (c.name, c.name) sch) := by
  have hAM := assignShift_single_at c h0 (dateStr year month day) "AM" (h "AM")
  have hPM := assignShift_single_at c (h0 + 6) (dateStr year month day) "PM" (h "PM")
  have e1 : (([{ c with hours := h0 }], sch) : List Caregiver × Sched).1
      = [{ c with hours := h0 }] := rfl
  unfold scheduleDay
  rw [e1, hAM]
  have e2 : (([{ c with hours := h0 + 6 }], c.name) : List Caregiver × String).1
      = [{ c with hours := h0 + 6 }] := rfl
  rw [e2, hPM]
  have e3 : h0 + 6 + 6 = h0 + 12 := by ring
  rw [e3]

theorem foldl_scheduleDay_single (year month : ℕ) (c : Caregiver) :
    ∀ (ds : List ℕ),
    (∀ d ∈ ds, ∀ s : String,
      ¬ c.get_availability (dateStr year month d) s = AvailStatus.UNAVAILABLE) →
    ∀ (h0 : ℚ) (sch : Sched),
    ds.foldl (fun st day => scheduleDay year month day st) ([{ c with hours := h0 }], sch)
      = ([{ c with hours := h0 + 12 * (ds.length : ℚ) }],
         ds.foldl (fun acc d => dictInsert (dateStr year month d) (c.name, c.name) acc) sch) := by
  intro ds
  induction ds with
  | nil =>
    intro _ h0 sch
    have : h0 + 12 * ((List.length ([] : List ℕ) : ℚ)) = h0 := by simp
    rw [List.foldl_nil, List.foldl_nil, this]
  | cons d t ih =>
    intro hav h0 sch
    rw [List.foldl_cons, List.foldl_cons,
        scheduleDay_single year month d c h0 sch (hav d (List.mem_cons_self _ _)),
        ih (fun e he s => hav e (List.mem_cons_of_mem _ he) s) (h0 + 12) _]
    have : h0 + 12 + 12 * (t.length : ℚ) = h0 + 12 * (((d :: t).length : ℕ) : ℚ) := by
      rw [List.length_cons]
      push_cast
      ring
    rw [this]

/-! ## Folds of dict insertions -/

theorem foldl_dictInsert_map (f : ℕ → String) (v : String × String) :
    ∀ (ds : List ℕ) (acc : Sched),
    (∀ d ∈ ds, f d ∉ acc.map Prod.fst) → (ds.map f).Nodup →
    ds.foldl (fun a d => dictInsert (f d) v a) acc
      = acc ++ ds.map (fun d => (f d, v)) := by
  intro ds
  induction ds with
  | nil => intro acc _ _; simp
  | cons d t ih =>
    intro acc hfresh hnd
    rw [List.map_cons, List.nodup_cons] at hnd
    rw [List.foldl_cons, dictInsert_fresh v (hfresh d (List.mem_cons_self _ _))]
    rw [ih (acc ++ [(f d, v)]) ?_ hnd.2]
    · simp
    · intro e he hcon
      rw [List.map_append] at hcon
      rcases List.mem_append.mp hcon with h1 | h1
      · exact hfresh e (List.mem_cons_of_mem _ he) h1
      · simp only [List.map_cons, List.map_nil, List.mem_singleton] at h1
        exact hnd.1 (h1 ▸ List.mem_map_of_mem _ he)

theorem foldl_dictInsert_id (f : ℕ → String) (v : String × String) :
    ∀ (ds : List ℕ) (sch : Sched),
    (∀ d ∈ ds, dictGet? (f d) sch = some v) →
    ds.foldl (fun a d => dictInsert (f d) v a) sch = sch := by
  intro ds
  induction ds with
  | nil => intro sch _; rfl
  | cons d t ih =>
    intro sch h
    rw [List.foldl_cons, dictInsert_of_get (h d (List.mem_cons_self _ _))]
    exact ih sch (fun e he => h e (List.mem_cons_of_mem _ he))

/-! ## Pay-report fold lemmas -/

theorem foldl_pay_notmem (k : String) :
    ∀ (caregivers : List Caregiver) (acc : List (String × (ℚ × ℚ × ℚ × ℚ))),
    k ∉ caregivers.map Caregiver.name →
    dictGet? k (caregivers.foldl (fun a c => dictInsert c.name (payEntry c) a) acc)
      = dictGet? k acc := by
  intro cs
  induction cs with
  | nil => intro acc _; rfl
  | cons c t ih =>
    intro acc hk
    rw [List.map_cons, List.mem_cons] at hk
    push_neg at hk
    rw [List.foldl_cons, ih _ hk.2,
        dictGet?_dictInsert_ne _ _ (fun he => hk.1 he.symm)]

theorem foldl_pay_mem :
    ∀ (caregivers : List Caregiver) (acc : List (String × (ℚ × ℚ × ℚ × ℚ))),
    (caregivers.map Caregiver.name).Nodup →
    ∀ c ∈ caregivers,
    dictGet? c.name (caregivers.foldl (fun a c => dictInsert c.name (payEntry c) a) acc)
      = some (payEntry c) := by
  intro cs
  induction cs with
  | nil => intro acc _ c hc; simp at hc
  | cons c0 t ih =>
    intro acc hnd c hc
    rw [List.map_cons, List.nodup_cons] at hnd
    rw [List.foldl_cons]
    rcases List.mem_cons.mp hc with rfl | hc'
    · rw [foldl_pay_notmem c.name t _ hnd.1, dictGet?_dictInsert_self]
    · exact ih _ hnd.2 c hc'

/-! ## Validation characterisation -/

theorem validate_input_false_iff (name phone email : String) (pay_rate : ℚ) :
    Caregiver.validate_input name phone email pay_rate = false ↔
      name = "" ∨ phone = "" ∨ email = "" ∨ pay_rate < 0 ∨
        ¬ email.data.count '@' = 1 := by
  unfold Caregiver.validate_input
  split_ifs with h1 h2 h3 <;> simp_all
  tauto

/-! ## The claims -/

/-- C1: for every `(date, shift)` assignment, `_assign_shift` selects the
lowest-hours caregiver of the preferred subset when that subset is
non-empty, else the lowest-hours caregiver of the available set when that
set is non-empty, else records `"No coverage"`; ties in hours go to the
caregiver appearing earliest in the input list (smaller index). -/
theorem assign_shift_selection (cs : List Caregiver) (date shift : String) :
    (preferredOf cs date shift ≠ [] →
      ∃ p, chooseCaregiver cs date shift = some p ∧
        p ∈ preferredOf cs date shift ∧
        (∀ q ∈ preferredOf cs date shift,
          p.2.hours ≤ q.2.hours ∧ (q.2.hours = p.2.hours → p.1 ≤ q.1)) ∧
        (assignShift cs date shift).2 = p.2.name) ∧
    (preferredOf cs date shift = [] → availableOf cs date shift ≠ [] →
      ∃ p, chooseCaregiver cs date shift = some p ∧
        p ∈ availableOf cs date shift ∧
        (∀ q ∈ availableOf cs date shift,
          p.2.hours ≤ q.2.hours ∧ (q.2.hours = p.2.hours → p.1 ≤ q.1)) ∧
        (assignShift cs date shift).2 = p.2.name) ∧
    (preferredOf cs date shift = [] → availableOf cs date shift = [] →
      (assignShift cs date shift).2 = "No coverage") := by
  refine ⟨?_, ?_, ?_⟩
  · intro hne
    obtain ⟨p, hmin, hmem, hspec⟩ :=
      minByHours_spec (preferredOf_pairwise cs date shift) hne
    have hch : chooseCaregiver cs date shift = some p := by
      unfold chooseCaregiver
      rw [hmin]
    refine ⟨p, hch, hmem, hspec, ?_⟩
    obtain ⟨i, c⟩ := p
    unfold assignShift
    rw [hch]
  · intro hpe hne
    obtain ⟨p, hmin, hmem, hspec⟩ :=
      minByHours_spec (availableOf_pairwise cs date shift) hne
    have hch : chooseCaregiver cs date shift = some p := by
      unfold chooseCaregiver
      rw [hpe]
      exact hmin
    refine ⟨p, hch, hmem, hspec, ?_⟩
    obtain ⟨i, c⟩ := p
    unfold assignShift
    rw [hch]
  · intro hpe hae
    have hch : chooseCaregiver cs date shift = none := by
      unfold chooseCaregiver
      rw [hpe, hae]
      rfl
    unfold assignShift
    rw [hch]

/-- C2: a caregiver whose stored status for `(date, shift)` is Unavailable
is never the caregiver `_assign_shift` selects for that `(date, shift)`. -/
theorem unavailable_never_selected (cs : List Caregiver) (date shift : String)
    (p : ℕ × Caregiver) (h : chooseCaregiver cs date shift = some p) :
    ¬ p.2.get_availability date shift = AvailStatus.UNAVAILABLE := by
  rcases chooseCaregiver_cases h with h' | h'
  · rw [(mem_preferredOf.mp h').2]
    decide
  · exact (mem_availableOf.mp h').2

/-- C2 witness: with one fully available caregiver the scheduler selects
that caregiver, and the theorem applies to the selection. -/
theorem unavailable_never_selected_witness :
    ¬ ((0, cW) : ℕ × Caregiver).2.get_availability "2024-12-01" "AM"
      = AvailStatus.UNAVAILABLE :=
  unavailable_never_selected [cW] "2024-12-01" "AM" (0, cW) rfl

/-- C5: caregiver creation fails exactly when a field is empty, the pay
rate is negative, or the email does not contain exactly one `'@'`; in
particular `"a@b@c"` is rejected and `"a@b.com"` is accepted. -/
theorem create_validation (name phone email : String) (pay_rate hours : ℚ) :
    (Caregiver.create name phone email pay_rate hours = none ↔
      name = "" ∨ phone = "" ∨ email = "" ∨ pay_rate < 0 ∨
        ¬ email.data.count '@' = 1) ∧
    Caregiver.create "a" "555" "a@b@c" 20 0 = none ∧
    (Caregiver.create "a" "555" "a@b.com" 20 0).isSome = true := by
  refine ⟨?_, by decide, by decide⟩
  rw [← validate_input_false_iff name phone email pay_rate]
  unfold Caregiver.create
  split_ifs with hv <;> simp_all

/-- C6: `add_hours` rejects a negative amount, leaving the record
unchanged (the replayed call is the identity), and adds any non-negative
amount exactly to the hour total. -/
theorem add_hours_spec (c : Caregiver) (amount : ℚ) :
    (amount < 0 → c.add_hours amount = none ∧
      applyCgOp c (CgOp.addHours amount) = c) ∧
    (0 ≤ amount → c.add_hours amount = some { c with hours := c.hours + amount }) := by
  constructor
  · intro hneg
    have hn : c.add_hours amount = none := by
      unfold Caregiver.add_hours
      rw [if_pos hneg]
    refine ⟨hn, ?_⟩
    show (c.add_hours amount).getD c = c
    rw [hn]
    rfl
  · intro hpos
    unfold Caregiver.add_hours
    rw [if_neg (not_lt_of_le hpos)]

/-- C10: `set_availability` accepts every date and shift string whenever
the status is one of the three `AvailStatus` constants (only the status is
checked), storing the status under that key, and `get_availability`
returns a status for any key whatsoever, defaulting to Available when the
key is absent. -/
theorem availability_unvalidated (c : Caregiver) (date shift status : String) :
    ((c.set_availability date shift status).isSome = true ↔
      status = AvailStatus.AVAILABLE ∨ status = AvailStatus.UNAVAILABLE ∨
        status = AvailStatus.PREFERRED) ∧
    (∀ c', c.set_availability date shift status = some c' →
      c'.get_availability date shift = status) ∧
    (dictGet? (date, shift) c.availability = none →
      c.get_availability date shift = AvailStatus.AVAILABLE) := by
  refine ⟨?_, ?_, ?_⟩
  · unfold Caregiver.set_availability
    split_ifs with hs <;> simp [hs]
  · intro c' hc'
    unfold Caregiver.set_availability at hc'
    split_ifs at hc' with hs
    obtain rfl : _ = c' := Option.some.inj hc'
    unfold Caregiver.get_availability
    rw [show ({ c with availability := dictInsert (date, shift) status c.availability } : Caregiver).availability = dictInsert (date, shift) status c.availability from rfl,
      dictGet?_dictInsert_self]
    rfl
  · intro hnone
    unfold Caregiver.get_availability
    rw [hnone]
    rfl

theorem applyCgOp_preserves {c : Caregiver} (h : 0 ≤ c.pay_rate ∧ 0 ≤ c.hours)
    (op : CgOp) : 0 ≤ (applyCgOp c op).pay_rate ∧ 0 ≤ (applyCgOp c op).hours := by
  cases op with
  | setAvail date shift status =>
    show 0 ≤ ((c.set_availability date shift status).getD c).pay_rate ∧
      0 ≤ ((c.set_availability date shift status).getD c).hours
    unfold Caregiver.set_availability
    split_ifs
    · exact h
    · exact h
  | addHours amount =>
    show 0 ≤ ((c.add_hours amount).getD c).pay_rate ∧
      0 ≤ ((c.add_hours amount).getD c).hours
    unfold Caregiver.add_hours
    split_ifs with hneg
    · exact h
    · exact ⟨h.1, add_nonneg h.2 (le_of_not_lt hneg)⟩

theorem applyRosterOp_preserves {cs : List Caregiver}
    (h : ∀ c ∈ cs, 0 ≤ c.pay_rate ∧ 0 ≤ c.hours) (op : RosterOp) :
    ∀ c' ∈ applyRosterOp cs op, 0 ≤ c'.pay_rate ∧ 0 ≤ c'.hours := by
  cases op with
  | cg i cop =>
    intro c' hc'
    simp only [applyRosterOp] at hc'
    cases hg : cs.get? i with
    | none => rw [hg] at hc'; exact h c' hc'
    | some c =>
      rw [hg] at hc'
      simp only at hc'
      rcases List.mem_or_eq_of_mem_set hc' with h' | h'
      · exact h c' h'
      · rw [h']
        exact applyCgOp_preserves (h c (List.get?_mem hg)) cop
  | runSchedule month year =>
    intro c' hc'
    simp only [applyRosterOp] at hc'
    cases hg : create_schedule cs [] month year with
    | none => rw [hg] at hc'; exact h c' hc'
    | some r =>
      rw [hg] at hc'
      exact create_schedule_preserves h hg c' hc'

theorem foldl_applyRosterOp_preserves :
    ∀ (ops : List RosterOp) (cs : List Caregiver),
    (∀ c ∈ cs, 0 ≤ c.pay_rate ∧ 0 ≤ c.hours) →
    ∀ c' ∈ ops.foldl applyRosterOp cs, 0 ≤ c'.pay_rate ∧ 0 ≤ c'.hours := by
  intro ops
  induction ops with
  | nil => intro cs h; simpa using h
  | cons op t ih =>
    intro cs h
    rw [List.foldl_cons]
    exact ih _ (applyRosterOp_preserves h op)

/-- C4 counterexample: `Caregiver.__init__` never validates the hours
argument, so construction with hours `-1` succeeds and produces a record
with a negative hour total, falsifying the claimed invariant immediately
after construction. -/
theorem caregiver_nonneg_invariant_counterexample :
    (Caregiver.create "a" "555" "a@b.com" 20 (-1)).map Caregiver.hours = some (-1) ∧
    ¬ (0 : ℚ) ≤ (-1 : ℚ) := by
  constructor
  · decide
  · decide

/-- C4 (amended): `pay_rate ≥ 0` and `hours ≥ 0` hold after any sequence
of roster operations (availability calls, hour additions, scheduler runs)
starting from a roster satisfying the invariant, and a successful
construction yields the invariant provided the constructor's hours
argument is non-negative — the constructor validates the pay rate but
never the hours argument. -/
theorem caregiver_nonneg_invariant (cs : List Caregiver)
    (h : ∀ c ∈ cs, 0 ≤ c.pay_rate ∧ 0 ≤ c.hours) (ops : List RosterOp) :
    (∀ c' ∈ ops.foldl applyRosterOp cs, 0 ≤ c'.pay_rate ∧ 0 ≤ c'.hours) ∧
    (∀ (name phone email : String) (pay_rate h0 : ℚ) (c' : Caregiver),
      Caregiver.create name phone email pay_rate h0 = some c' → 0 ≤ h0 →
      0 ≤ c'.pay_rate ∧ 0 ≤ c'.hours) := by
  constructor
  · exact foldl_applyRosterOp_preserves ops cs h
  · intro name phone email pay_rate h0 c' hc' hh
    unfold Caregiver.create at hc'
    split_ifs at hc' with hv
    obtain rfl : _ = c' := Option.some.inj hc'
    refine ⟨?_, hh⟩
    by_contra hneg
    have hfalse : Caregiver.validate_input name phone email pay_rate = false := by
      rw [validate_input_false_iff]
      exact Or.inr (Or.inr (Or.inr (Or.inl (lt_of_not_le hneg))))
    exact Bool.noConfusion (hv.symm.trans hfalse)

/-- C4 witness: the amended invariant applied to a concrete roster and a
concrete operation sequence including a scheduler run. -/
theorem caregiver_nonneg_invariant_witness :
    (∀ c' ∈ ([RosterOp.cg 0 (CgOp.addHours 5),
        RosterOp.runSchedule 12 2024].foldl applyRosterOp [cW]),
      0 ≤ c'.pay_rate ∧ 0 ≤ c'.hours) ∧
    (∀ (name phone email : String) (pay_rate h0 : ℚ) (c' : Caregiver),
      Caregiver.create name phone email pay_rate h0 = some c' → 0 ≤ h0 →
      0 ≤ c'.pay_rate ∧ 0 ≤ c'.hours) :=
  caregiver_nonneg_invariant [cW] (by decide)
    [RosterOp.cg 0 (CgOp.addHours 5), RosterOp.runSchedule 12 2024]

/-- C3: for every month in `[1, 12]` and year `≥ 2000`, `create_schedule`
succeeds and its schedule holds exactly one entry per real day of the
month — the date keys, in order, are the month's days, and they are
pairwise distinct; each entry is an `(AM, PM)` cell by construction. -/
theorem create_schedule_days (cs : List Caregiver) (month year : ℕ)
    (h1 : 1 ≤ month) (h2 : month ≤ 12) (h3 : 2000 ≤ year) :
    ∃ r, create_schedule cs [] month year = some r ∧
      r.2.map Prod.fst
        = (List.range' 1 (monthLength year month)).map (dateStr year month) ∧
      (r.2.map Prod.fst).Nodup := by
  have hkeys : ((List.range' 1 (monthLength year month)).foldl
      (fun st day => scheduleDay year month day st) (cs, ([] : Sched))).2.map Prod.fst
      = (List.range' 1 (monthLength year month)).map (dateStr year month) := by
    have := foldl_scheduleDay_keys year month
      (List.range' 1 (monthLength year month)) (cs, ([] : Sched))
      (fun d _ hc => by simp at hc)
      (dates_nodup year month _ (monthLength_le year month))
    simpa using this
  refine ⟨(List.range' 1 (monthLength year month)).foldl
      (fun st day => scheduleDay year month day st) (cs, ([] : Sched)), ?_, hkeys, ?_⟩
  · unfold create_schedule
    rw [if_pos ⟨h1, h2, h3⟩]
  · rw [hkeys]
    exact dates_nodup year month _ (monthLength_le year month)

/-- C3 witness: the schedule for February 2024 (a leap month). -/
theorem create_schedule_days_witness :
    ∃ r, create_schedule [] [] 2 2024 = some r ∧
      r.2.map Prod.fst
        = (List.range' 1 (monthLength 2024 2)).map (dateStr 2024 2) ∧
      (r.2.map Prod.fst).Nodup :=
  create_schedule_days [] 2 2024 (by norm_num) (by norm_num) (by norm_num)

/-- C7: `calculate_pay` yields, per caregiver (names are the dict keys, so
they are assumed pairwise distinct), an entry whose weekly gross is
`hours * rate` and whose monthly gross is that times 4. -/
theorem calculate_pay_spec (caregivers : List Caregiver)
    (h : (caregivers.map Caregiver.name).Nodup) :
    ∀ c ∈ caregivers,
      dictGet? c.name (calculate_pay caregivers)
        = some (c.hours, c.pay_rate, c.hours * c.pay_rate,
            c.hours * c.pay_rate * 4) :=
  fun c hc => foldl_pay_mem caregivers [] h c hc

/-- C7 witness: a caregiver with 40 hours at rate 25 yields weekly gross
1000 and monthly gross 4000. -/
theorem calculate_pay_spec_witness :
    dictGet? "P" (calculate_pay [cP]) = some (40, 25, 1000, 4000) := by
  have h := calculate_pay_spec [cP] (by decide) cP (List.mem_cons_self _ _)
  have e : ((cP.hours : ℚ), (cP.pay_rate : ℚ), cP.hours * cP.pay_rate,
      cP.hours * cP.pay_rate * 4) = ((40 : ℚ), (25 : ℚ), (1000 : ℚ), (4000 : ℚ)) := by
    norm_num [cP]
  exact e ▸ h

theorem create_schedule_single (c : Caregiver) (h0 : ℚ) (sch : Sched)
    (hav : ∀ d ∈ List.range' 1 31, ∀ s : String,
      ¬ c.get_availability (dateStr 2024 12 d) s = AvailStatus.UNAVAILABLE) :
    create_schedule [{ c with hours := h0 }] sch 12 2024
      = some ([{ c with hours := h0 + 372 }],
          (List.range' 1 31).foldl
            (fun acc d => dictInsert (dateStr 2024 12 d) (c.name, c.name) acc) sch) := by
  unfold create_schedule
  rw [if_pos (by norm_num), show monthLength 2024 12 = 31 from rfl,
    foldl_scheduleDay_single 2024 12 c (List.range' 1 31) hav h0 sch]
  have e : h0 + 12 * ((List.range' 1 31).length : ℚ) = h0 + 372 := by
    rw [List.length_range']
    norm_num
  rw [e]

/-- C8: a single caregiver with zero starting hours and no Unavailable
status anywhere in December 2024 is assigned both the AM and the PM shift
of all 31 days — the resulting schedule is exactly one `(name, name)` cell
per day — and ends with `31 × 2 × 6 = 372` hours. -/
theorem one_caregiver_full_month (c : Caregiver) (h0 : c.hours = 0)
    (hav : ∀ day, 1 ≤ day → day ≤ 31 → ∀ s : String,
      ¬ c.get_availability (dateStr 2024 12 day) s = AvailStatus.UNAVAILABLE) :
    ∃ sch, create_schedule [c] [] 12 2024 = some ([{ c with hours := 372 }], sch) ∧
      sch = (List.range' 1 31).map
        (fun d => (dateStr 2024 12 d, (c.name, c.name))) := by
  have hav' : ∀ d ∈ List.range' 1 31, ∀ s : String,
      ¬ c.get_availability (dateStr 2024 12 d) s = AvailStatus.UNAVAILABLE := by
    intro d hd s
    rw [List.mem_range'_1] at hd
    exact hav d hd.1 (by omega) s
  have hc : [c] = [{ c with hours := (0 : ℚ) }] := by
    cases c with
    | mk nm ph em pr hr av =>
      obtain rfl : hr = 0 := h0
      rfl
  have hsch := foldl_dictInsert_map (fun d => dateStr 2024 12 d) (c.name, c.name)
    (List.range' 1 31) [] (fun d _ hc => by simp at hc)
    (dates_nodup 2024 12 31 (by norm_num))
  refine ⟨(List.range' 1 31).map (fun d => (dateStr 2024 12 d, (c.name, c.name))),
    ?_, rfl⟩
  rw [hc, create_schedule_single c 0 [] hav', hsch]
  have e : (0 : ℚ) + 372 = 372 := by norm_num
  rw [e]
  simp

/-- C8 witness: the full-coverage scenario at a concrete caregiver with an
empty availability map. -/
theorem one_caregiver_full_month_witness :
    ∃ sch, create_schedule [cW] [] 12 2024 = some ([{ cW with hours := 372 }], sch) ∧
      sch = (List.range' 1 31).map
        (fun d => (dateStr 2024 12 d, (cW.name, cW.name))) := by
  refine one_caregiver_full_month cW rfl ?_
  intro day _ _ s
  exact (by decide : ¬ (AvailStatus.AVAILABLE = AvailStatus.UNAVAILABLE))

/-- C9: `create_schedule` is not idempotent with respect to hours: with
the December 2024 single-caregiver roster, re-running it without resetting
hours re-adds 6 hours for each of the 62 assigned shifts (372 more,
doubling the total to 744), while the schedule entries are overwritten in
place — the second run returns the identical schedule dict, with no
duplicated entries. -/
theorem create_schedule_not_idempotent (c : Caregiver) (h0 : c.hours = 0)
    (hav : ∀ day, 1 ≤ day → day ≤ 31 → ∀ s : String,
      ¬ c.get_availability (dateStr 2024 12 day) s = AvailStatus.UNAVAILABLE) :
    ∃ sch, create_schedule [c] [] 12 2024 = some ([{ c with hours := 372 }], sch) ∧
      create_schedule [{ c with hours := 372 }] sch 12 2024
        = some ([{ c with hours := 372 + 372 }], sch) := by
  have hav' : ∀ d ∈ List.range' 1 31, ∀ s : String,
      ¬ c.get_availability (dateStr 2024 12 d) s = AvailStatus.UNAVAILABLE := by
    intro d hd s
    rw [List.mem_range'_1] at hd
    exact hav d hd.1 (by omega) s
  have hc : [c] = [{ c with hours := (0 : ℚ) }] := by
    cases c with
    | mk nm ph em pr hr av =>
      obtain rfl : hr = 0 := h0
      rfl
  have hsch := foldl_dictInsert_map (fun d => dateStr 2024 12 d) (c.name, c.name)
    (List.range' 1 31) [] (fun d _ hc => by simp at hc)
    (dates_nodup 2024 12 31 (by norm_num))
  refine ⟨(List.range' 1 31).map (fun d => (dateStr 2024 12 d, (c.name, c.name))),
    ?_, ?_⟩
  · rw [hc, create_schedule_single c 0 [] hav', hsch]
    have e : (0 : ℚ) + 372 = 372 := by norm_num
    rw [e]
    simp
  · rw [create_schedule_single c 372
      ((List.range' 1 31).map (fun d => (dateStr 2024 12 d, (c.name, c.name)))) hav']
    have hid := foldl_dictInsert_id (fun d => dateStr 2024 12 d) (c.name, c.name)
      (List.range' 1 31)
      ((List.range' 1 31).map (fun d => (dateStr 2024 12 d, (c.name, c.name)))) ?_
    · rw [hid]
    · intro d hd
      apply dictGet?_of_const
      · have hmf : ((List.range' 1 31).map
            (fun d => (dateStr 2024 12 d, (c.name, c.name)))).map Prod.fst
            = (List.range' 1 31).map (fun d => dateStr 2024 12 d) := by
          rw [List.map_map]
          rfl
        rw [hmf]
        exact List.mem_map_of_mem _ hd
      · intro e he
        obtain ⟨d', _, rfl⟩ := List.mem_map.mp he
        rfl

/-- C9 witness: the double-counting scenario at a concrete caregiver with
an empty availability map. -/
theorem create_schedule_not_idempotent_witness :
    ∃ sch, create_schedule [cW] [] 12 2024 = some ([{ cW with hours := 372 }], sch) ∧
      create_schedule [{ cW with hours := 372 }] sch 12 2024
        = some ([{ cW with hours := 372 + 372 }], sch) := by
  refine create_schedule_not_idempotent cW rfl ?_
  intro day _ _ s
  exact (by decide : ¬ (AvailStatus.AVAILABLE = AvailStatus.UNAVAILABLE))

end Project03
